import Mathlib

/-!
Verification development for the sync-state eviction engine and account
connectivity check implemented in `src/gui/application.cpp`.

The embedding covers:

* the per-path sync-state journal read and written by the eviction sweep
  (`SyncJournalDb`'s sync-mode table, modelled as a list of records);
* the recursive filesystem deletion helper `removeDirs`
  (application.cpp, lines 748-774), over a tree model of the cache
  directory in which each file carries the observable bits the code
  branches on: its user-write permission bit, whether an unlink attempt
  on it succeeds, and whether a permission change on it succeeds;
* the eviction sweep `Application::slotDeleteOnlineFiles`
  (application.cpp, lines 776-856), including its non-terminating
  per-file deletion loop, modelled by an outcome type that records
  whether the sweep ran to completion or got stuck on a path;
* the connectivity check `Application::slotCheckConnection`
  (application.cpp, lines 442-463) and the empty-account branch of
  `Application::slotAccountStateRemoved` (application.cpp, lines 342-348).

Filesystem conventions of the model: the cache is a finite map whose
keys are top-level roots of the cached area, mapping a tracked path to
what the code finds at the corresponding real path
(`<standard data location>/cachedFiles/<item>`); that fixed prefix is a
bijective renaming of keys and is left out.  A tracked path that lies
beneath another tracked directory is not a separate key: its cached
bytes are the node `resolveSegs` finds inside the ancestor's tree (see
`nestedNode`), which is exactly how a sweep of the ancestor directory
reaches — and deletes — them.  A
directory's children are listed in the order `QDir::entryInfoList`
returns them under the flags used at line 753 (directories first).
`QFile::remove` is modelled as succeeding exactly when the user-write
permission bit is set and the unlink itself can succeed, matching the
Windows semantics the permission-retry branch of `removeDirs` is written
for.
-/

namespace OCC

/-- The sync-mode values of `SyncJournalDb::SyncMode` as used by the sweep.
`SYNCMODE_ONLINE` marks placeholder-eligible paths, `SYNCMODE_OFFLINE`
paths that are always kept materialized. -/
inductive SyncMode where
  | SYNCMODE_ONLINE
  | SYNCMODE_OFFLINE
  deriving DecidableEq, Repr

/-- The download states of `SyncJournalDb::SyncModeDownload` as matched in
the logging cascade of the sweep (application.cpp, lines 805-818).
`SYNCMODE_DOWNLOADED_NONE` is "no local bytes", `SYNCMODE_DOWNLOADED_NO`
an incomplete download, `SYNCMODE_DOWNLOADED_YES` a complete one. -/
inductive SyncModeDownload where
  | SYNCMODE_DOWNLOADED_NONE
  | SYNCMODE_DOWNLOADED_NO
  | SYNCMODE_DOWNLOADED_YES
  deriving DecidableEq, Repr

/-- One row of the sync-mode table: path, sync mode, download status and
the last-access time in epoch seconds. -/
structure SyncModeRecord where
  path : String
  mode : SyncMode
  down : SyncModeDownload
  lastAccess : Int
  deriving DecidableEq, Repr

/-- The journal state the sweep touches: the sync-mode table (one row per
tracked path) and the set of paths holding a file record in the main
journal table. -/
structure JournalDb where
  syncTable : List SyncModeRecord
  fileRecords : List String
  deriving DecidableEq, Repr

/-- Modelled from the spec: `listPaths` snapshots the tracked paths; the
sweep's `SyncJournalDb::getSyncModePaths()` returns the paths of the
sync-mode table rows. -/
def getSyncModePaths (db : JournalDb) : List String :=
  db.syncTable.map (·.path)

/-- The sync-mode table row of a path, if any. -/
def findRecord (db : JournalDb) (p : String) : Option SyncModeRecord :=
  db.syncTable.find? (fun r => decide (r.path = p))

/-- Modelled from the spec: `getSyncMode(path) -> mode|absent` is a keyed
point read of the path's row. -/
def getSyncMode (db : JournalDb) (p : String) : Option SyncMode :=
  (findRecord db p).map (·.mode)

/-- Modelled from the spec: `getDownloadStatus(path) -> status|absent` is a
keyed point read of the path's row. -/
def getSyncModeDownload (db : JournalDb) (p : String) : Option SyncModeDownload :=
  (findRecord db p).map (·.down)

/-- Modelled from the spec: `secondsSinceLastAccess(path)` is the time
elapsed since the row's `lastAccessAt`, here `now` minus the stored
epoch-seconds value. -/
def secondsSinceLastAccess (db : JournalDb) (now : Int) (p : String) : Option Int :=
  (findRecord db p).map (fun r => now - r.lastAccess)

/-- Modelled from the spec: `SyncJournalDb::deleteSyncMode(path)` removes
the path's row from the sync-mode table. -/
def deleteSyncMode (db : JournalDb) (p : String) : JournalDb :=
  { db with syncTable := db.syncTable.filter (fun r => decide (r.path ≠ p)) }

/-- Path `q` lies strictly beneath directory path `p`: `p ++ "/"` is a
prefix of `q`.  Paths are `/`-separated relative paths as in the
journal. -/
def pathUnder (q p : String) : Bool :=
  List.isPrefixOf (p.data ++ [Char.ofNat 47]) q.data

/-- Modelled from the spec: `deleteRecord(path)` removes the path's record
entirely; `SyncJournalDb::deleteFileRecord(path, recursively)` removes the
path's row of the main journal table and, when `recursively` is set — as
the sweep's directory branch requests — also the rows of every tracked
path beneath it. -/
def deleteFileRecord (db : JournalDb) (p : String) (recursively : Bool) : JournalDb :=
  { db with
      fileRecords := db.fileRecords.filter
        (fun q => !(decide (q = p) || (recursively && pathUnder q p))) }

/-- A node of the cached-files tree.  A file carries the three bits the
deletion code observes: the user-write permission bit (`QFile::WriteUser`),
whether an unlink of it can succeed once it is writable, and whether a
permission change on it succeeds. -/
inductive FSNode where
  | file (name : String) (writeUser unlinkOk chmodOk : Bool) : FSNode
  | dir (name : String) (children : List FSNode) : FSNode
  deriving Repr

mutual

/-- The body of the `Q_FOREACH` loop of `removeDirs` (application.cpp,
lines 753-770) for one directory entry: a subdirectory is processed by the
recursive `removeDirs` call; a file is removed with `QFile::remove`, and on
failure, if the user-write permission bit is missing, the code grants it
with `QFile::setPermissions` and retries the removal exactly once.  The
result is the loop body's `result` flag together with what is left of the
entry (`none` when it was removed). -/
def removeEntry : FSNode → Bool × Option FSNode
  | .file n w u c =>
      if w && u then (true, none)
      else if !w then
        if c && u then (true, none) else (false, some (.file n c u c))
      else (false, some (.file n w u c))
  | .dir n cs =>
      let r := removeDirsChildren cs
      (r.1, some (.dir n r.2))

/-- The `Q_FOREACH` loop of `removeDirs` (application.cpp, lines 753-770)
over the directory's entry list: entries are processed in listing order;
as soon as one entry's `result` is false the function returns false,
leaving the remaining entries untouched. -/
def removeDirsChildren : List FSNode → Bool × List FSNode
  | [] => (true, [])
  | e :: es =>
      let r := removeEntry e
      if r.1 then
        let rest := removeDirsChildren es
        (rest.1, r.2.toList ++ rest.2)
      else
        (false, r.2.toList ++ es)

end

/-- What the sweep finds at a path's real cache location: an existing
directory with its children (`QDir::exists()` true), or a non-directory
location, carrying whether a file exists there and, if so, its write
permission and unlink bits. -/
inductive FSTarget where
  | directory (children : List FSNode) : FSTarget
  | plainFile (present writeUser unlinkOk : Bool) : FSTarget
  deriving Repr

/-- The cached-files area: a finite map from journal path to what is on
disk there. -/
def FS : Type := List (String × FSTarget)

/-- Look a path up in the cached-files area. -/
def fsFind (fs : FS) (p : String) : Option FSTarget :=
  (fs.find? (fun kv => decide (kv.1 = p))).map (·.2)

/-- Replace what is on disk at a path. -/
def fsSet (fs : FS) (p : String) (v : FSTarget) : FS :=
  fs.map (fun kv => if kv.1 = p then (p, v) else kv)

/-- The entry name of a tree node. -/
def FSNode.name : FSNode → String
  | .file n _ _ _ => n
  | .dir n _ => n

/-- The result of running the sweep: either it processed the whole
snapshot, or its inner `while (file.exists())` deletion loop
(application.cpp, lines 845-849) never exited on some path, in which case
the journal and the filesystem are frozen in the state they had when that
path's loop was entered and no later path is processed. -/
inductive SweepOutcome where
  | completed (db : JournalDb) (fs : FS) : SweepOutcome
  | stuck (path : String) (db : JournalDb) (fs : FS) : SweepOutcome

/-- The journal state carried by a sweep outcome. -/
def SweepOutcome.db : SweepOutcome → JournalDb
  | .completed db _ => db
  | .stuck _ db _ => db

/-- The filesystem state carried by a sweep outcome. -/
def SweepOutcome.fs : SweepOutcome → FS
  | .completed _ fs => fs
  | .stuck _ _ fs => fs

/-- The eviction condition of the sweep (application.cpp, lines 820-822)
on a path's row: more than 65 seconds since the last access, and sync mode
`SYNCMODE_ONLINE`.  The row's download status is not consulted. -/
def evictionSelected (now : Int) (r : SyncModeRecord) : Bool :=
  decide (now - r.lastAccess > 65) && decide (r.mode = SyncMode.SYNCMODE_ONLINE)

/-- The per-item loop of `Application::slotDeleteOnlineFiles`
(application.cpp, lines 794-855).  For each snapshot path the code reads
the row's seconds-since-last-access and sync mode; when the eviction
condition holds it deletes the local bytes — an existing directory via
`removeDirs` with the returned flag ignored, a file via a
`while (file.exists())` remove-and-sleep loop — and then unconditionally
calls `deleteFileRecord` followed by `deleteSyncMode` on the row.  A file
whose removal never succeeds keeps the loop spinning forever, which the
model reports as a `stuck` outcome. -/
def sweepItems (now : Int) : List String → JournalDb → FS → SweepOutcome
  | [], db, fs => .completed db fs
  | item :: rest, db, fs =>
      match findRecord db item with
      | none => sweepItems now rest db fs
      | some r =>
          if evictionSelected now r then
            match fsFind fs item with
            | some (.directory children) =>
                let fs' := fsSet fs item (.directory (removeDirsChildren children).2)
                sweepItems now rest (deleteSyncMode (deleteFileRecord db item true) item) fs'
            | some (.plainFile present w u) =>
                if present && !(w && u) then
                  .stuck item db fs
                else
                  let fs' := if present then fsSet fs item (.plainFile false w u) else fs
                  sweepItems now rest (deleteSyncMode (deleteFileRecord db item false) item) fs'
            | none =>
                sweepItems now rest (deleteSyncMode (deleteFileRecord db item false) item) fs
          else
            sweepItems now rest db fs

/-- `Application::slotDeleteOnlineFiles` (application.cpp, lines 776-856):
snapshot the sync-mode table's paths, then run the per-item loop.  The
`if (!list.empty())` guard is the same as iterating the empty snapshot. -/
def slotDeleteOnlineFiles (db : JournalDb) (fs : FS) (now : Int) : SweepOutcome :=
  sweepItems now (getSyncModePaths db) db fs

/-- The file-existence flag seen by the `while (file.exists())` deletion
loop (application.cpp, lines 845-849) right before its `k`-th removal
attempt, for a file that initially exists iff `present` and whose `k`-th
`QFile::remove` attempt succeeds iff `removeOk k`: the file is still there
exactly when it was there before and no earlier attempt succeeded. -/
def fileExistsBeforeAttempt (present : Bool) (removeOk : Nat → Bool) : Nat → Bool
  | 0 => present
  | k + 1 => fileExistsBeforeAttempt present removeOk k && !removeOk k

/-- The `while (file.exists())` loop exits: after some number of removal
attempts the file no longer exists. -/
def deleteLoopExits (present : Bool) (removeOk : Nat → Bool) : Prop :=
  ∃ k, fileExistsBeforeAttempt present removeOk k = false

namespace AccountState

/-- Modelled from the spec: the connectivity states of one account.  The
source file uses `AccountState::SignedOut`, `ConfigurationError` and
`AskingCredentials` in the check's guard; the enum itself is declared
outside this file, and the spec's data model lists exactly these five
states. -/
inductive State where
  | SignedOut
  | Connecting
  | Connected
  | ConfigurationError
  | AskingCredentials
  deriving DecidableEq, Repr

end AccountState

/-- The guard of `Application::slotCheckConnection` (application.cpp,
lines 449-454): an account gets `checkConnectivity()` called on it exactly
when its state is none of `SignedOut`, `ConfigurationError`,
`AskingCredentials`. -/
def checkConnectivityGuard (s : AccountState.State) : Bool :=
  decide (s ≠ AccountState.State.SignedOut)
    && decide (s ≠ AccountState.State.ConfigurationError)
    && decide (s ≠ AccountState.State.AskingCredentials)

/-- The externally visible effect of one run of
`Application::slotCheckConnection` (application.cpp, lines 442-463): which
accounts got probed, whether the settings/setup dialog was signalled, and
whether the periodic check timer was stopped. -/
structure CheckConnectionRun where
  connectivityChecked : List AccountState.State
  setupWizardSignalled : Bool
  checkConnectionTimerStopped : Bool
  deriving DecidableEq, Repr

/-- `Application::slotCheckConnection` (application.cpp, lines 442-463):
probe every registered account whose state passes the guard; when the
account list is empty, let the gui open the setup dialog and stop the
periodic `_checkConnectionTimer`. -/
def slotCheckConnection (accounts : List AccountState.State) : CheckConnectionRun :=
  { connectivityChecked := accounts.filter checkConnectivityGuard
  , setupWizardSignalled := accounts.isEmpty
  , checkConnectionTimerStopped := accounts.isEmpty }

/-- The empty-account branch of `Application::slotAccountStateRemoved`
(application.cpp, lines 342-348): after a removal, the setup wizard is run
exactly when no account is left. -/
def slotAccountStateRemovedRunsWizard (remaining : List AccountState.State) : Bool :=
  remaining.isEmpty

/-- Modelled from the spec: the probe outcomes the connectivity capability
can report. -/
inductive ProbeResult where
  | Success
  | ConfigurationError
  | AuthRequired
  | Unreachable
  deriving DecidableEq, Repr

/-- Modelled from the spec: how a probed account's state advances on a
probe outcome (spec section 4.3).  Success connects, a configuration error
and an authentication requirement settle in their error states, and an
unreachable server keeps the account connecting. -/
def probeOutcomeState : ProbeResult → AccountState.State
  | .Success => .Connected
  | .ConfigurationError => .ConfigurationError
  | .AuthRequired => .AskingCredentials
  | .Unreachable => .Connecting

/-- One periodic-timer step for one account: the guard of
`slotCheckConnection` decides whether the account is probed at all; a
probed account moves to the probe outcome's state, an unprobed one keeps
its state. -/
def periodicCheckStep (s : AccountState.State) (r : ProbeResult) : AccountState.State :=
  if checkConnectivityGuard s then probeOutcomeState r else s

/-- Modelled from the spec: the transition edges of the connectivity state
machine (spec section 4.3) — probe outcomes from `Connecting`, the
periodic recheck from `Connected`, the explicit user sign-out from any
state, and the explicit external triggers that take the settled states
back to `Connecting`. -/
inductive ConnectivityStep : AccountState.State → AccountState.State → Prop where
  | probeSuccess : ConnectivityStep .Connecting .Connected
  | probeConfigurationError : ConnectivityStep .Connecting .ConfigurationError
  | probeAuthRequired : ConnectivityStep .Connecting .AskingCredentials
  | probeUnreachable : ConnectivityStep .Connecting .Connecting
  | periodicRecheck : ConnectivityStep .Connected .Connecting
  | userSignOut (s : AccountState.State) : ConnectivityStep s .SignedOut
  | userReauth : ConnectivityStep .SignedOut .Connecting
  | credentialsEntered : ConnectivityStep .AskingCredentials .Connecting
  | reconfigured : ConnectivityStep .ConfigurationError .Connecting

/-- Paths of the sync-mode table are pairwise distinct (the table's key). -/
abbrev pathsNodup (db : JournalDb) : Prop :=
  (getSyncModePaths db).Nodup

mutual

/-- True when a tree node contains no file anywhere (it is a directory all
of whose descendants are directories). -/
def hasNoFiles : FSNode → Bool
  | .file _ _ _ _ => false
  | .dir _ cs => hasNoFilesList cs

/-- True when no tree in the list contains a file. -/
def hasNoFilesList : List FSNode → Bool
  | [] => true
  | e :: es => hasNoFiles e && hasNoFilesList es

end

mutual

/-- The directory skeleton of a node: files are dropped, directories are
kept with their skeletonised children. -/
def dirSkeleton : FSNode → Option FSNode
  | .file _ _ _ _ => none
  | .dir n cs => some (.dir n (dirSkeletonList cs))

/-- The directory skeleton of a list of nodes. -/
def dirSkeletonList : List FSNode → List FSNode
  | [] => []
  | e :: es => (dirSkeleton e).toList ++ dirSkeletonList es

end

/-- Follows the spec's words, for comparison with the code's
`evictionSelected`: the spec selects a path for eviction when its sync
mode is Online, its download status is Partial or Full (the incomplete or
complete download states — not the no-bytes state), and its idle time
strictly exceeds the threshold. -/
def specEvictionSelected (threshold now : Int) (r : SyncModeRecord) : Bool :=
  decide (r.mode = SyncMode.SYNCMODE_ONLINE)
    && (decide (r.down = SyncModeDownload.SYNCMODE_DOWNLOADED_NO)
        || decide (r.down = SyncModeDownload.SYNCMODE_DOWNLOADED_YES))
    && decide (now - r.lastAccess > threshold)

def noneStatusRecord : SyncModeRecord :=
  ⟨"p", .SYNCMODE_ONLINE, .SYNCMODE_DOWNLOADED_NONE, 0⟩

def noneStatusDb : JournalDb := ⟨[noneStatusRecord], ["p"]⟩

def scenarioARecord : SyncModeRecord :=
  ⟨"docs/report.pdf", .SYNCMODE_ONLINE, .SYNCMODE_DOWNLOADED_YES, 0⟩

def scenarioADb : JournalDb := ⟨[scenarioARecord], ["docs/report.pdf"]⟩

def scenarioAFs : FS := [("docs/report.pdf", .plainFile true true true)]

def failDirChildren : List FSNode := [.file "g.txt" true false true]

def failDirDb : JournalDb := ⟨[⟨"d", .SYNCMODE_ONLINE, .SYNCMODE_DOWNLOADED_YES, 0⟩], ["d"]⟩

def failDirFs : FS := [("d", .directory failDirChildren)]

def readonlyDb : JournalDb := ⟨[⟨"f.txt", .SYNCMODE_ONLINE, .SYNCMODE_DOWNLOADED_YES, 0⟩], ["f.txt"]⟩

def readonlyFs : FS := [("f.txt", .plainFile true false true)]

theorem eq_of_path_eq {db : JournalDb} {x r : SyncModeRecord}
    (hnd : pathsNodup db) (hx : x ∈ db.syncTable) (hr : r ∈ db.syncTable)
    (hp : x.path = r.path) : x = r :=
  List.inj_on_of_nodup_map hnd hx hr hp

theorem findRecord_eq_some {db : JournalDb} {r : SyncModeRecord}
    (hnd : pathsNodup db) (hr : r ∈ db.syncTable) :
    findRecord db r.path = some r := by
  unfold findRecord
  cases hfind : db.syncTable.find? (fun x => decide (x.path = r.path)) with
  | none =>
      exfalso
      have := List.find?_eq_none.mp hfind r hr
      simp at this
  | some x =>
      have hpx : x.path = r.path := by
        have := List.find?_some hfind
        simpa using this
      have hmx : x ∈ db.syncTable := List.mem_of_find?_eq_some hfind
      rw [eq_of_path_eq hnd hmx hr hpx]

theorem fsFind_fsSet_ne {fs : FS} {i q : String} {v : FSTarget}
    (h : q ≠ i) : fsFind (fsSet fs i v) q = fsFind fs q := by
  induction fs with
  | nil => rfl
  | cons kv rest ih =>
      by_cases hk : kv.1 = i
      · simp only [fsFind, fsSet, List.map_cons, List.find?, hk, if_pos]
        have h1 : (decide ((i, v).1 = q)) = false := by simp [Ne.symm h]
        have h2 : (decide (kv.1 = q)) = false := by simp [hk, Ne.symm h]
        simp only [h1, h2, Bool.false_eq_true, if_neg]
        simpa [fsFind, fsSet] using ih
      · simp only [fsFind, fsSet, List.map_cons, List.find?, if_neg hk]
        by_cases hq : kv.1 = q
        · simp [hq]
        · have h2 : (decide (kv.1 = q)) = false := by simp [hq]
          simp only [h2]
          simpa [fsFind, fsSet] using ih

theorem pathsNodup_delete {db : JournalDb} (hnd : pathsNodup db) (i : String) (b : Bool) :
    pathsNodup (deleteSyncMode (deleteFileRecord db i b) i) := by
  unfold pathsNodup getSyncModePaths deleteSyncMode deleteFileRecord at *
  exact ((db.syncTable.filter_sublist).map _).nodup hnd

theorem mem_delete_of_ne {db : JournalDb} {r : SyncModeRecord} {i : String} {b : Bool}
    (hr : r ∈ db.syncTable) (hne : r.path ≠ i) :
    r ∈ (deleteSyncMode (deleteFileRecord db i b) i).syncTable := by
  simp [deleteSyncMode, deleteFileRecord, List.mem_filter, hr, hne]

theorem sweep_preserves_unselected {now : Int} :
    ∀ (items : List String) (db : JournalDb) (fs : FS) (r : SyncModeRecord),
      pathsNodup db → r ∈ db.syncTable → evictionSelected now r = false →
      r ∈ (sweepItems now items db fs).db.syncTable
      ∧ fsFind (sweepItems now items db fs).fs r.path = fsFind fs r.path
  | [], _, _, r, _, hr, _ => ⟨hr, rfl⟩
  | i :: rest, db, fs, r, hnd, hr, hsel => by
      cases hfind : findRecord db i with
      | none =>
          simpa [sweepItems, hfind] using
            sweep_preserves_unselected rest db fs r hnd hr hsel
      | some r' =>
          by_cases hsel' : evictionSelected now r' = true
          · have hne : r.path ≠ i := by
              intro he
              rw [← he, findRecord_eq_some hnd hr] at hfind
              injection hfind with h'
              rw [← h', hsel] at hsel'
              exact Bool.false_ne_true hsel'
            cases hfs : fsFind fs i with
            | none =>
                have ih := sweep_preserves_unselected rest
                  (deleteSyncMode (deleteFileRecord db i false) i) fs r
                  (pathsNodup_delete hnd i false) (mem_delete_of_ne hr hne) hsel
                simpa [sweepItems, hfind, hsel', hfs] using ih
            | some t =>
                cases t with
                | directory children =>
                    have ih := sweep_preserves_unselected rest
                      (deleteSyncMode (deleteFileRecord db i true) i)
                      (fsSet fs i (.directory (removeDirsChildren children).2)) r
                      (pathsNodup_delete hnd i true) (mem_delete_of_ne hr hne) hsel
                    rw [fsFind_fsSet_ne hne] at ih
                    simpa [sweepItems, hfind, hsel', hfs] using ih
                | plainFile present w u =>
                    by_cases hstuck : (present && !(w && u)) = true
                    · simp only [sweepItems, hfind, hsel', hfs, hstuck, if_pos]
                      exact ⟨hr, rfl⟩
                    · have ih := sweep_preserves_unselected rest
                        (deleteSyncMode (deleteFileRecord db i false) i)
                        (if present then fsSet fs i (.plainFile false w u) else fs) r
                        (pathsNodup_delete hnd i false) (mem_delete_of_ne hr hne) hsel
                      have hfseq :
                          fsFind (if present then fsSet fs i (.plainFile false w u) else fs) r.path
                            = fsFind fs r.path := by
                        cases present with
                        | false => simp
                        | true => simpa using fsFind_fsSet_ne (v := FSTarget.plainFile false w u) hne
                      rw [hfseq] at ih
                      have hstuck' : ¬(present = true ∧ (w = false ∨ u = false)) := by
                        simpa using hstuck
                      simpa [sweepItems, hfind, hsel', hfs, hstuck'] using ih
          · simpa [sweepItems, hfind, hsel'] using
              sweep_preserves_unselected rest db fs r hnd hr hsel

theorem record_of_findRecord {db : JournalDb} {i : String} {r' : SyncModeRecord}
    (hfind : findRecord db i = some r') :
    r' ∈ db.syncTable ∧ r'.path = i := by
  have hfind' : db.syncTable.find? (fun x => decide (x.path = i)) = some r' := hfind
  refine ⟨List.mem_of_find?_eq_some hfind', ?_⟩
  have := List.find?_some hfind'
  simpa using this

theorem sweep_completed_syncTable {now : Int} :
    ∀ (items : List String) (db : JournalDb) (fs : FS) {db' : JournalDb} {fs' : FS},
      pathsNodup db → sweepItems now items db fs = .completed db' fs' →
      db'.syncTable = db.syncTable.filter
        (fun r => !(decide (r.path ∈ items) && evictionSelected now r))
  | [], db, fs, db', fs', _, h => by
      injection h with h1 h2
      subst h1
      simp
  | i :: rest, db, fs, db', fs', hnd, h => by
      cases hfind : findRecord db i with
      | none =>
          rw [sweepItems, hfind] at h
          rw [sweep_completed_syncTable rest db fs hnd h]
          refine List.filter_congr (fun x hx => ?_)
          have hxi : ¬(x.path = i) := by
            have hfind' : db.syncTable.find? (fun y => decide (y.path = i)) = none := hfind
            have := List.find?_eq_none.mp hfind' x hx
            simpa using this
          simp [hxi]
      | some r' =>
          obtain ⟨hr'm, hr'p⟩ := record_of_findRecord hfind
          by_cases hsel' : evictionSelected now r' = true
          · have step :
                ∀ (b : Bool) (fs₁ : FS),
                  sweepItems now rest (deleteSyncMode (deleteFileRecord db i b) i) fs₁
                      = .completed db' fs' →
                  db'.syncTable = db.syncTable.filter
                    (fun r => !(decide (r.path ∈ i :: rest) && evictionSelected now r)) := by
              intro b fs₁ hrun
              have ih := sweep_completed_syncTable rest
                (deleteSyncMode (deleteFileRecord db i b) i) fs₁
                (pathsNodup_delete hnd i b) hrun
              rw [ih]
              show (db.syncTable.filter (fun r => decide (r.path ≠ i))).filter _ = _
              rw [List.filter_filter]
              refine List.filter_congr (fun x hx => ?_)
              by_cases hxi : x.path = i
              · have hxr : x = r' := eq_of_path_eq hnd hx hr'm (hxi.trans hr'p.symm)
                simp [hxi, hxr, hsel', hr'p]
              · simp [hxi]
            cases hfs : fsFind fs i with
            | none =>
                rw [sweepItems, hfind] at h
                simp only [hsel', if_pos, hfs] at h
                exact step false fs h
            | some t =>
                cases t with
                | directory children =>
                    rw [sweepItems, hfind] at h
                    simp only [hsel', if_pos, hfs] at h
                    exact step true _ h
                | plainFile present w u =>
                    rw [sweepItems, hfind] at h
                    simp only [hsel', if_pos, hfs] at h
                    by_cases hstuck : (present && !(w && u)) = true
                    · rw [if_pos hstuck] at h
                      exact absurd h (by simp)
                    · rw [if_neg hstuck] at h
                      exact step false _ h
          · rw [sweepItems, hfind] at h
            simp only [hsel', if_neg, Bool.false_eq_true] at h
            rw [sweep_completed_syncTable rest db fs hnd h]
            refine List.filter_congr (fun x hx => ?_)
            by_cases hxi : x.path = i
            · have hxr : x = r' := eq_of_path_eq hnd hx hr'm (hxi.trans hr'p.symm)
              have : evictionSelected now x = false := by
                rw [hxr]
                exact Bool.not_eq_true _ ▸ (Bool.eq_false_iff.mpr hsel')
              simp [this]
            · simp [hxi]

theorem slotDelete_completed_syncTable {db : JournalDb} {fs : FS} {now : Int}
    {db' : JournalDb} {fs' : FS} (hnd : pathsNodup db)
    (h : slotDeleteOnlineFiles db fs now = .completed db' fs') :
    db'.syncTable = db.syncTable.filter (fun r => !evictionSelected now r) := by
  rw [sweep_completed_syncTable (getSyncModePaths db) db fs hnd h]
  refine List.filter_congr (fun x hx => ?_)
  have hmem : x.path ∈ getSyncModePaths db := List.mem_map_of_mem _ hx
  simp [hmem]

theorem sweep_noop {now : Int} :
    ∀ (items : List String) (db : JournalDb) (fs : FS),
      (∀ r ∈ db.syncTable, evictionSelected now r = false) →
      sweepItems now items db fs = .completed db fs
  | [], _, _, _ => rfl
  | i :: rest, db, fs, hall => by
      cases hfind : findRecord db i with
      | none => simpa [sweepItems, hfind] using sweep_noop rest db fs hall
      | some r' =>
          obtain ⟨hm, _⟩ := record_of_findRecord hfind
          have hsel : evictionSelected now r' = false := hall r' hm
          simpa [sweepItems, hfind, hsel] using sweep_noop rest db fs hall

theorem sweep_fileRecords_subset {now : Int} :
    ∀ (items : List String) (db : JournalDb) (fs : FS),
      (sweepItems now items db fs).db.fileRecords ⊆ db.fileRecords
  | [], _, _ => fun _ h => h
  | i :: rest, db, fs => by
      cases hfind : findRecord db i with
      | none =>
          simpa [sweepItems, hfind] using sweep_fileRecords_subset rest db fs
      | some r' =>
          by_cases hsel' : evictionSelected now r' = true
          · have hsub : ∀ (b : Bool),
                (deleteSyncMode (deleteFileRecord db i b) i).fileRecords ⊆ db.fileRecords := by
              intro b
              exact (List.filter_sublist _).subset
            cases hfs : fsFind fs i with
            | none =>
                refine subset_trans ?_ (hsub false)
                simpa [sweepItems, hfind, hsel', hfs] using
                  sweep_fileRecords_subset rest (deleteSyncMode (deleteFileRecord db i false) i) fs
            | some t =>
                cases t with
                | directory children =>
                    refine subset_trans ?_ (hsub true)
                    simpa [sweepItems, hfind, hsel', hfs] using
                      sweep_fileRecords_subset rest
                        (deleteSyncMode (deleteFileRecord db i true) i)
                        (fsSet fs i (.directory (removeDirsChildren children).2))
                | plainFile present w u =>
                    by_cases hstuck : (present && !(w && u)) = true
                    · simp only [sweepItems, hfind, hsel', hfs, hstuck, if_pos]
                      exact fun _ h => h
                    · have hstuck' : ¬(present = true ∧ (w = false ∨ u = false)) := by
                        simpa using hstuck
                      refine subset_trans ?_ (hsub false)
                      simpa [sweepItems, hfind, hsel', hfs, hstuck'] using
                        sweep_fileRecords_subset rest
                          (deleteSyncMode (deleteFileRecord db i false) i)
                          (if present then fsSet fs i (.plainFile false w u) else fs)
          · simpa [sweepItems, hfind, hsel'] using sweep_fileRecords_subset rest db fs

theorem findRecord_delete_of_ne {db : JournalDb} {i j : String} {r : SyncModeRecord} {b : Bool}
    (hnd : pathsNodup db) (hfind : findRecord db i = some r) (hij : i ≠ j) :
    findRecord (deleteSyncMode (deleteFileRecord db j b) j) i = some r := by
  obtain ⟨hm, hp⟩ := record_of_findRecord hfind
  have hm' : r ∈ (deleteSyncMode (deleteFileRecord db j b) j).syncTable :=
    mem_delete_of_ne hm (by rw [hp]; exact hij)
  have := findRecord_eq_some (pathsNodup_delete hnd j b) hm'
  rwa [hp] at this

theorem sweep_removes_selected_fileRecord {now : Int} :
    ∀ (items : List String) (db : JournalDb) (fs : FS) (i : String) (r : SyncModeRecord)
      (db' : JournalDb) (fs' : FS),
      pathsNodup db → i ∈ items → findRecord db i = some r →
      evictionSelected now r = true →
      sweepItems now items db fs = .completed db' fs' →
      i ∉ db'.fileRecords
  | [], _, _, _, _, _, _, _, him, _, _, _ => absurd him (List.not_mem_nil _)
  | j :: rest, db, fs, i, r, db', fs', hnd, him, hifind, hisel, h => by
      cases hfind : findRecord db j with
      | none =>
          have hij : i ≠ j := by
            intro he
            rw [he, hfind] at hifind
            exact Option.noConfusion hifind
          have hirest : i ∈ rest := (List.mem_cons.mp him).resolve_left hij
          rw [sweepItems, hfind] at h
          exact sweep_removes_selected_fileRecord rest db fs i r db' fs' hnd hirest hifind hisel h
      | some r₂ =>
          by_cases hsel₂ : evictionSelected now r₂ = true
          · have step :
                ∀ (b : Bool) (fs₁ : FS),
                  sweepItems now rest (deleteSyncMode (deleteFileRecord db j b) j) fs₁
                      = .completed db' fs' →
                  i ∉ db'.fileRecords := by
              intro b fs₁ hrun
              by_cases hij : i = j
              · subst hij
                intro habs
                have hsub := @sweep_fileRecords_subset now rest
                  (deleteSyncMode (deleteFileRecord db i b) i) fs₁
                rw [hrun] at hsub
                have : i ∈ (deleteSyncMode (deleteFileRecord db i b) i).fileRecords :=
                  hsub habs
                simp [deleteSyncMode, deleteFileRecord, List.mem_filter] at this
              · have hirest : i ∈ rest := (List.mem_cons.mp him).resolve_left hij
                exact sweep_removes_selected_fileRecord rest
                  (deleteSyncMode (deleteFileRecord db j b) j) fs₁ i r db' fs'
                  (pathsNodup_delete hnd j b) hirest
                  (findRecord_delete_of_ne hnd hifind hij) hisel hrun
            cases hfs : fsFind fs j with
            | none =>
                rw [sweepItems, hfind] at h
                simp only [hsel₂, if_pos, hfs] at h
                exact step false fs h
            | some t =>
                cases t with
                | directory children =>
                    rw [sweepItems, hfind] at h
                    simp only [hsel₂, if_pos, hfs] at h
                    exact step true _ h
                | plainFile present w u =>
                    rw [sweepItems, hfind] at h
                    simp only [hsel₂, if_pos, hfs] at h
                    by_cases hstuck : (present && !(w && u)) = true
                    · rw [if_pos hstuck] at h
                      exact absurd h (by simp)
                    · rw [if_neg hstuck] at h
                      exact step false _ h
          · have hij : i ≠ j := by
              intro he
              rw [he, hfind] at hifind
              injection hifind with h'
              rw [h'] at hsel₂
              exact hsel₂ hisel
            have hirest : i ∈ rest := (List.mem_cons.mp him).resolve_left hij
            rw [sweepItems, hfind] at h
            simp only [hsel₂, if_neg, Bool.false_eq_true] at h
            exact sweep_removes_selected_fileRecord rest db fs i r db' fs' hnd hirest hifind hisel h

theorem pathsNodup_of_completed {db db' : JournalDb} {fs fs' : FS} {now : Int}
    (hnd : pathsNodup db) (hrun : slotDeleteOnlineFiles db fs now = .completed db' fs') :
    pathsNodup db' := by
  have htab := slotDelete_completed_syncTable hnd hrun
  unfold pathsNodup getSyncModePaths at *
  rw [htab]
  exact ((List.filter_sublist _).map _).nodup hnd

theorem findRecord_completed_of_not_selected {db db' : JournalDb} {fs fs' : FS} {now : Int}
    {r : SyncModeRecord} (hnd : pathsNodup db) (hr : r ∈ db.syncTable)
    (hsel : evictionSelected now r = false)
    (hrun : slotDeleteOnlineFiles db fs now = .completed db' fs') :
    findRecord db' r.path = some r := by
  have htab := slotDelete_completed_syncTable hnd hrun
  have hr' : r ∈ db'.syncTable := by
    rw [htab]
    exact List.mem_filter.mpr ⟨hr, by simp [hsel]⟩
  exact findRecord_eq_some (pathsNodup_of_completed hnd hrun) hr'

theorem findRecord_completed_of_selected {db db' : JournalDb} {fs fs' : FS} {now : Int}
    {r : SyncModeRecord} (hnd : pathsNodup db) (hr : r ∈ db.syncTable)
    (hsel : evictionSelected now r = true)
    (hrun : slotDeleteOnlineFiles db fs now = .completed db' fs') :
    findRecord db' r.path = none := by
  have htab := slotDelete_completed_syncTable hnd hrun
  show db'.syncTable.find? (fun x => decide (x.path = r.path)) = none
  refine List.find?_eq_none.mpr (fun x hx => ?_)
  rw [htab] at hx
  obtain ⟨hxm, hxk⟩ := List.mem_filter.mp hx
  intro hxp
  have hxp' : x.path = r.path := by simpa using hxp
  have : x = r := eq_of_path_eq hnd hxm hr hxp'
  rw [this, hsel] at hxk
  simp at hxk

/-- C2 counterexample: a record whose download status is the no-bytes value
`SYNCMODE_DOWNLOADED_NONE` — which the spec's selection condition excludes —
is nevertheless selected by the code's condition, and one sweep deletes its
sync-mode row and file record. -/
theorem eviction_ignores_downloadStatus_cex :
    specEvictionSelected 65 100 noneStatusRecord = false
    ∧ evictionSelected 100 noneStatusRecord = true
    ∧ (slotDeleteOnlineFiles noneStatusDb [] 100).db.syncTable = []
    ∧ findRecord (slotDeleteOnlineFiles noneStatusDb [] 100).db "p" = none :=
  ⟨rfl, rfl, rfl, rfl⟩

/-- C2 amended: in a completed sweep a snapshot path is selected for
deletion of its cached bytes (and of its journal rows) if and only if its
sync mode is `SYNCMODE_ONLINE` and its idle time strictly exceeds 65
seconds; the download status plays no role.  The first conjunct
characterises the selected paths as exactly those whose sync-mode row is
gone afterwards; the second states that an unselected path's cached bytes
are untouched. -/
theorem eviction_selection_iff (db : JournalDb) (fs : FS) (now : Int)
    (db' : JournalDb) (fs' : FS) (r : SyncModeRecord)
    (hnd : pathsNodup db) (hr : r ∈ db.syncTable)
    (hrun : slotDeleteOnlineFiles db fs now = .completed db' fs') :
    (findRecord db' r.path = none
      ↔ (r.mode = SyncMode.SYNCMODE_ONLINE ∧ now - r.lastAccess > 65))
    ∧ (evictionSelected now r = false → fsFind fs' r.path = fsFind fs r.path) := by
  have hselIff : evictionSelected now r = true
      ↔ (r.mode = SyncMode.SYNCMODE_ONLINE ∧ now - r.lastAccess > 65) := by
    simp [evictionSelected, and_comm]
  constructor
  · constructor
    · intro hnone
      by_contra hc
      have hsel : evictionSelected now r = false :=
        Bool.eq_false_iff.mpr (fun ht => hc (hselIff.mp ht))
      rw [findRecord_completed_of_not_selected hnd hr hsel hrun] at hnone
      exact Option.noConfusion hnone
    · intro hcond
      exact findRecord_completed_of_selected hnd hr (hselIff.mpr hcond) hrun
  · intro hsel
    have h2 := (@sweep_preserves_unselected now (getSyncModePaths db) db fs r hnd hr hsel).2
    have hrun' : sweepItems now (getSyncModePaths db) db fs = .completed db' fs' := hrun
    rw [hrun'] at h2
    exact h2

theorem eviction_selection_iff_witness :
    (findRecord (JournalDb.mk [] []) noneStatusRecord.path = none
      ↔ (noneStatusRecord.mode = SyncMode.SYNCMODE_ONLINE
          ∧ (100 : Int) - noneStatusRecord.lastAccess > 65))
    ∧ (evictionSelected 100 noneStatusRecord = false →
        fsFind ([] : FS) noneStatusRecord.path = fsFind ([] : FS) noneStatusRecord.path) :=
  eviction_selection_iff noneStatusDb [] 100 ⟨[], []⟩ [] noneStatusRecord
    (by decide) (by decide) rfl

/-- C3 counterexample: the spec's Scenario A input — a fully downloaded
Online record 700 seconds idle.  After one sweep the local bytes are gone,
but the record is not retained with `downloadStatus = None`: both its
sync-mode row and its file record are deleted, and the store no longer
returns any sync mode for the path. -/
theorem evicted_record_not_kept_cex :
    slotDeleteOnlineFiles scenarioADb scenarioAFs 700
        = .completed ⟨[], []⟩ [("docs/report.pdf", FSTarget.plainFile false true true)]
    ∧ findRecord (slotDeleteOnlineFiles scenarioADb scenarioAFs 700).db "docs/report.pdf" = none
    ∧ getSyncMode (slotDeleteOnlineFiles scenarioADb scenarioAFs 700).db "docs/report.pdf" = none :=
  ⟨rfl, rfl, rfl⟩

/-- C3 amended: after a completed sweep processes a selected path, the
path's record is removed from the store entirely — the sync-mode row is
gone and so is the path's file record — rather than being kept with
`downloadStatus = None`. -/
theorem evicted_record_deleted (db : JournalDb) (fs : FS) (now : Int)
    (db' : JournalDb) (fs' : FS) (r : SyncModeRecord)
    (hnd : pathsNodup db) (hr : r ∈ db.syncTable)
    (hsel : evictionSelected now r = true)
    (hrun : slotDeleteOnlineFiles db fs now = .completed db' fs') :
    findRecord db' r.path = none ∧ r.path ∉ db'.fileRecords := by
  refine ⟨findRecord_completed_of_selected hnd hr hsel hrun, ?_⟩
  exact sweep_removes_selected_fileRecord (getSyncModePaths db) db fs r.path r db' fs'
    hnd (List.mem_map_of_mem _ hr) (findRecord_eq_some hnd hr) hsel hrun

theorem evicted_record_deleted_witness :
    findRecord (JournalDb.mk [] []) scenarioARecord.path = none
    ∧ scenarioARecord.path ∉ (JournalDb.mk [] []).fileRecords :=
  evicted_record_deleted scenarioADb scenarioAFs 700 ⟨[], []⟩
    [("docs/report.pdf", FSTarget.plainFile false true true)] scenarioARecord
    (by decide) (by decide) rfl rfl

/-- C8: on a store left unchanged between two sweeps (same journal, same
filesystem, same clock), a second sweep after a completed first sweep is a
no-op: it completes and returns the journal and cached-files state of the
first sweep unchanged. -/
theorem sweep_idempotent (db : JournalDb) (fs : FS) (now : Int)
    (db₁ : JournalDb) (fs₁ : FS) (hnd : pathsNodup db)
    (hrun : slotDeleteOnlineFiles db fs now = .completed db₁ fs₁) :
    slotDeleteOnlineFiles db₁ fs₁ now = .completed db₁ fs₁ := by
  have htab := slotDelete_completed_syncTable hnd hrun
  show sweepItems now (getSyncModePaths db₁) db₁ fs₁ = .completed db₁ fs₁
  apply sweep_noop
  intro r hr
  rw [htab] at hr
  have := (List.mem_filter.mp hr).2
  simpa using this

theorem sweep_idempotent_witness :
    slotDeleteOnlineFiles ⟨[], []⟩ [("docs/report.pdf", FSTarget.plainFile false true true)] 700
      = .completed ⟨[], []⟩ [("docs/report.pdf", FSTarget.plainFile false true true)] :=
  sweep_idempotent scenarioADb scenarioAFs 700 ⟨[], []⟩
    [("docs/report.pdf", FSTarget.plainFile false true true)] (by decide) rfl

/-- C4 counterexample: a selected directory whose contents cannot be
deleted (`removeDirs` returns false because the contained file's unlink
fails).  The sweep does not leave the record untouched: it still deletes
both the sync-mode row and the file record, while the file is still on
disk. -/
theorem failed_dir_eviction_cex :
    (removeDirsChildren failDirChildren).1 = false
    ∧ slotDeleteOnlineFiles failDirDb failDirFs 100 = .completed ⟨[], []⟩ failDirFs :=
  ⟨rfl, rfl⟩

/-- C4 amended: when deletion of a selected directory's contents fails,
the sweep ignores the failure — it still deletes the path's file record
and sync-mode row and moves on to the remaining snapshot paths exactly as
on success; only a file path whose removal keeps failing blocks the sweep
(see the non-termination theorem of the per-file loop). -/
theorem dir_eviction_ignores_failure (now : Int) (i : String) (rest : List String)
    (db : JournalDb) (fs : FS) (r : SyncModeRecord) (children : List FSNode)
    (hfind : findRecord db i = some r) (hsel : evictionSelected now r = true)
    (hfs : fsFind fs i = some (.directory children))
    (_hfail : (removeDirsChildren children).1 = false) :
    sweepItems now (i :: rest) db fs
      = sweepItems now rest (deleteSyncMode (deleteFileRecord db i true) i)
          (fsSet fs i (.directory (removeDirsChildren children).2)) := by
  rw [sweepItems, hfind]
  simp only [hsel, if_pos, hfs]

theorem dir_eviction_ignores_failure_witness :
    sweepItems 100 ["d"] failDirDb failDirFs
      = sweepItems 100 [] (deleteSyncMode (deleteFileRecord failDirDb "d" true) "d")
          (fsSet failDirFs "d" (.directory (removeDirsChildren failDirChildren).2)) :=
  dir_eviction_ignores_failure 100 "d" [] failDirDb failDirFs
    ⟨"d", .SYNCMODE_ONLINE, .SYNCMODE_DOWNLOADED_YES, 0⟩ failDirChildren rfl rfl rfl rfl

/-- C5 counterexample: a selected path that is a plain file with the
user-write permission bit cleared (read-only) but otherwise removable.
The sweep does not grant write permission and retry — its per-file loop
has no permission handling at all — so it gets stuck on the path: the
file stays on disk and the record keeps its prior download status instead
of becoming the no-bytes value. -/
theorem readonly_file_blocks_sweep_cex :
    slotDeleteOnlineFiles readonlyDb readonlyFs 100 = .stuck "f.txt" readonlyDb readonlyFs
    ∧ fsFind (slotDeleteOnlineFiles readonlyDb readonlyFs 100).fs "f.txt"
        = some (.plainFile true false true)
    ∧ getSyncModeDownload (slotDeleteOnlineFiles readonlyDb readonlyFs 100).db "f.txt"
        = some .SYNCMODE_DOWNLOADED_YES :=
  ⟨rfl, rfl, rfl⟩

/-- C5 amended: the force-grant-write-and-retry-once behaviour exists only
inside `removeDirs`, i.e. for file entries encountered inside a swept
directory — there a read-only but otherwise removable file is removed on
the single elevated retry.  A top-level file path gets no permission
retry: if it is read-only the sweep's deletion loop never exits, freezing
journal and filesystem; and a successful eviction deletes the record
rather than setting its download status to the no-bytes value. -/
theorem permission_retry_only_inside_dirs :
    (∀ n : String, removeEntry (FSNode.file n false true true) = (true, none))
    ∧ (∀ (dn n : String), removeEntry (FSNode.dir dn [FSNode.file n false true true])
        = (true, some (FSNode.dir dn [])))
    ∧ (∀ (now : Int) (i : String) (rest : List String) (db : JournalDb) (fs : FS)
        (r : SyncModeRecord),
        findRecord db i = some r → evictionSelected now r = true →
        fsFind fs i = some (.plainFile true false true) →
        sweepItems now (i :: rest) db fs = .stuck i db fs) := by
  refine ⟨fun n => rfl, fun dn n => rfl, ?_⟩
  intro now i rest db fs r hfind hsel hfs
  rw [sweepItems, hfind]
  simp only [hsel, if_pos, hfs]
  simp

theorem hasNoFilesList_append (a b : List FSNode) :
    hasNoFilesList (a ++ b) = (hasNoFilesList a && hasNoFilesList b) := by
  induction a with
  | nil => simp [hasNoFilesList]
  | cons e es ih => simp [hasNoFilesList, ih, Bool.and_assoc]

theorem dirSkeletonList_append (a b : List FSNode) :
    dirSkeletonList (a ++ b) = dirSkeletonList a ++ dirSkeletonList b := by
  induction a with
  | nil => simp [dirSkeletonList]
  | cons e es ih => simp [dirSkeletonList, ih]

mutual

theorem removeEntry_success_clean : ∀ (e : FSNode), (removeEntry e).1 = true →
    hasNoFilesList (removeEntry e).2.toList = true
    ∧ dirSkeletonList (removeEntry e).2.toList = (dirSkeleton e).toList
  | .file n w u c => by
      cases w <;> cases u <;> cases c <;>
        simp [removeEntry, hasNoFilesList, dirSkeleton, dirSkeletonList]
  | .dir n cs => by
      intro h
      have hq := removeDirsChildren_success_clean cs (by simpa [removeEntry] using h)
      constructor
      · simp [removeEntry, hasNoFilesList, hasNoFiles, hq.1]
      · simp [removeEntry, dirSkeleton, dirSkeletonList, hq.2]

theorem removeDirsChildren_success_clean :
    ∀ (cs : List FSNode), (removeDirsChildren cs).1 = true →
      hasNoFilesList (removeDirsChildren cs).2 = true
      ∧ dirSkeletonList (removeDirsChildren cs).2 = dirSkeletonList cs
  | [] => fun _ => ⟨rfl, rfl⟩
  | e :: es => by
      intro h
      by_cases h1 : (removeEntry e).1 = true
      · have he := removeEntry_success_clean e h1
        have hrest : (removeDirsChildren es).1 = true := by
          have heq : (removeDirsChildren (e :: es)).1 = (removeDirsChildren es).1 := by
            simp [removeDirsChildren, h1]
          rw [heq] at h
          exact h
        have hes := removeDirsChildren_success_clean es hrest
        constructor
        · simp [removeDirsChildren, h1, hasNoFilesList_append, he.1, hes.1]
        · simp [removeDirsChildren, h1, dirSkeletonList_append, he.2, hes.2, dirSkeletonList]
      · exfalso
        have hfalse : (removeDirsChildren (e :: es)).1 = false := by
          simp [removeDirsChildren, h1]
        have := hfalse.symm.trans h
        exact Bool.false_ne_true this

end

/-- C9 counterexample: `removeDirs` on a directory containing one (empty)
subdirectory reports success, yet neither the contained directory nor the
directory itself is removed — the code unlinks files only and never calls
any directory-removal primitive. -/
theorem removeDirs_keeps_directories_cex :
    removeEntry (.dir "d" [.dir "s" []]) = (true, some (.dir "d" [.dir "s" []]))
    ∧ (removeDirsChildren [FSNode.dir "s" []]).2 = [FSNode.dir "s" []] :=
  ⟨rfl, rfl⟩

/-- C9 amended: when `removeDirs` succeeds on a swept directory's
children, every file of the tree has been removed, but the directories are
all still there: the result's directory skeleton is exactly the input's.
A swept path that names a file is deleted directly by the per-file loop
(one removal when it is writable and unlinkable) and the sweep moves on. -/
theorem eviction_deletes_files_not_directories :
    (∀ cs : List FSNode, (removeDirsChildren cs).1 = true →
        hasNoFilesList (removeDirsChildren cs).2 = true
        ∧ dirSkeletonList (removeDirsChildren cs).2 = dirSkeletonList cs)
    ∧ (∀ (now : Int) (i : String) (rest : List String) (db : JournalDb) (fs : FS)
        (r : SyncModeRecord) (w u : Bool),
        findRecord db i = some r → evictionSelected now r = true →
        fsFind fs i = some (.plainFile true w u) → (w && u) = true →
        sweepItems now (i :: rest) db fs
          = sweepItems now rest (deleteSyncMode (deleteFileRecord db i false) i)
              (fsSet fs i (.plainFile false w u))) := by
  refine ⟨removeDirsChildren_success_clean, ?_⟩
  intro now i rest db fs r w u hfind hsel hfs hwu
  rw [sweepItems, hfind]
  simp only [hsel, if_pos, hfs]
  simp [hwu]

theorem fileExists_forever (f : Nat → Bool) (hf : ∀ k, f k = false) :
    ∀ k, fileExistsBeforeAttempt true f k = true
  | 0 => rfl
  | k + 1 => by
      simp [fileExistsBeforeAttempt, fileExists_forever f hf k, hf k]

/-- C10: the per-file deletion loop `while (file.exists()) { remove;
msleep(100); }` terminates only when some removal attempt succeeds.  For an
existing file all of whose removal attempts fail — in this model a file
lacking the write bit or the unlink capability — the loop never exits, and
the sweep freezes at that path: the outcome is `stuck` with journal and
filesystem exactly as they were when the path's loop was entered, so no
later snapshot path is processed. -/
theorem file_delete_loop_diverges (w u : Bool) (now : Int) (i : String)
    (rest : List String) (db : JournalDb) (fs : FS) (r : SyncModeRecord)
    (hwu : (w && u) = false) (hfind : findRecord db i = some r)
    (hsel : evictionSelected now r = true)
    (hfs : fsFind fs i = some (.plainFile true w u)) :
    ¬ deleteLoopExits true (fun _ => w && u)
    ∧ sweepItems now (i :: rest) db fs = .stuck i db fs := by
  constructor
  · rintro ⟨k, hk⟩
    rw [fileExists_forever (fun _ => w && u) (fun _ => hwu) k] at hk
    exact absurd hk (by simp)
  · rw [sweepItems, hfind]
    simp only [hsel, if_pos, hfs]
    simp [hwu]

theorem file_delete_loop_diverges_witness :
    ¬ deleteLoopExits true (fun _ => false && true)
    ∧ sweepItems 100 ["f.txt"] readonlyDb readonlyFs = .stuck "f.txt" readonlyDb readonlyFs :=
  file_delete_loop_diverges false true 100 "f.txt" [] readonlyDb readonlyFs
    ⟨"f.txt", .SYNCMODE_ONLINE, .SYNCMODE_DOWNLOADED_YES, 0⟩ rfl rfl rfl rfl

theorem checkConnectivityGuard_iff (s : AccountState.State) :
    checkConnectivityGuard s = true
      ↔ (s = AccountState.State.Connecting ∨ s = AccountState.State.Connected) := by
  cases s <;> simp [checkConnectivityGuard]

theorem connectivityStep_of_signedOut {s : AccountState.State}
    (h : ConnectivityStep AccountState.State.SignedOut s) :
    s = AccountState.State.SignedOut ∨ s = AccountState.State.Connecting := by
  cases h <;> simp

theorem signedOut_chain_through_connecting :
    ∀ l : List AccountState.State,
      List.Chain' ConnectivityStep (AccountState.State.SignedOut :: l) →
      AccountState.State.Connected ∈ l → AccountState.State.Connecting ∈ l := by
  intro l
  induction l with
  | nil => intro _ hmem; exact absurd hmem (List.not_mem_nil _)
  | cons a l ih =>
      intro hchain hmem
      have hstep : ConnectivityStep AccountState.State.SignedOut a :=
        (List.chain'_cons.mp hchain).1
      have hrest : List.Chain' ConnectivityStep (a :: l) :=
        (List.chain'_cons.mp hchain).2
      rcases connectivityStep_of_signedOut hstep with ha | ha
      · subst ha
        rcases List.mem_cons.mp hmem with he | hl
        · exact absurd he (by simp)
        · exact List.mem_cons_of_mem _ (ih hrest hl)
      · subst ha
        exact List.mem_cons_self _ _

/-- C6: the periodic connectivity check never probes an account whose
state is `SignedOut`, `ConfigurationError` or `AskingCredentials` — under
the spec's five-state model its guard passes exactly the
`Connecting`/`Connected` accounts — an unprobed account's state is not
advanced by the timer step, and along the spec's transition edges every
path from `SignedOut` to `Connected` passes through `Connecting` (there
is no direct edge). -/
theorem connectivity_check_only_probes_active :
    (∀ s : AccountState.State, checkConnectivityGuard s = true
        ↔ (s = AccountState.State.Connecting ∨ s = AccountState.State.Connected))
    ∧ (∀ (accounts : List AccountState.State) (s : AccountState.State),
        s ∈ (slotCheckConnection accounts).connectivityChecked →
        s = AccountState.State.Connecting ∨ s = AccountState.State.Connected)
    ∧ (∀ (s : AccountState.State) (p : ProbeResult),
        checkConnectivityGuard s = false → periodicCheckStep s p = s)
    ∧ (∀ l : List AccountState.State,
        List.Chain' ConnectivityStep (AccountState.State.SignedOut :: l) →
        AccountState.State.Connected ∈ l → AccountState.State.Connecting ∈ l) := by
  refine ⟨checkConnectivityGuard_iff, ?_, ?_, signedOut_chain_through_connecting⟩
  · intro accounts s hs
    have hg : checkConnectivityGuard s = true := by
      have hs' : s ∈ accounts.filter checkConnectivityGuard := hs
      exact (List.mem_filter.mp hs').2
    exact (checkConnectivityGuard_iff s).mp hg
  · intro s p hg
    simp [periodicCheckStep, hg]

/-- C7: one run of the connectivity check signals the setup flow (lets the
gui open the setup dialog), stops the periodic timer, and probes nothing
exactly when the registered account set is empty; and the
account-removed handler runs the setup wizard exactly when the removed
account was the last one. -/
theorem no_accounts_signals_setup_flow :
    (∀ accounts : List AccountState.State,
      ((slotCheckConnection accounts).setupWizardSignalled = true
        ∧ (slotCheckConnection accounts).checkConnectionTimerStopped = true
        ∧ (slotCheckConnection accounts).connectivityChecked = [])
      ↔ accounts = [])
    ∧ (∀ remaining : List AccountState.State,
        slotAccountStateRemovedRunsWizard remaining = true ↔ remaining = []) := by
  constructor
  · intro accounts
    cases accounts with
    | nil => simp [slotCheckConnection]
    | cons a l => simp [slotCheckConnection]
  · intro remaining
    cases remaining with
    | nil => simp [slotAccountStateRemovedRunsWizard]
    | cons a l => simp [slotAccountStateRemovedRunsWizard]

end OCC
